import Mathlib

/-!
# Verification of the servox WAT-to-WASM compilation pipeline

Shallow embedding of `src/components/script/wasm_compiler.rs`.

Byte buffers (`Vec<u8>` / `&[u8]`) are modelled as `List Nat`, each read going
through `% 256` (the honest reading of a byte list).  Rust `u32` arithmetic is
modelled on `Nat` with explicit `% 2^32` where overflow can occur; `x << s` on
`u32` in release mode masks the shift amount (`s % 32`) and drops overflowing
bits, which `shlU32` mirrors.  Strings (`&str` / `String`) are modelled as
`List Char`; Rust byte indices returned by `str::find` coincide with character
indices for the pattern/slice operations used here because valid UTF-8 is
self-synchronizing (a valid encoded pattern never matches starting inside a
character), and the one place a byte *length* is used numerically
(`string_content.len()`) is modelled with the UTF-8 byte length `utf8Len`.

Rust code that can panic (slice indexing out of range) is modelled with
`Option`: `none` is a panic.  Loops are modelled by fuel-based structural
recursion; each loop's fuel argument is instantiated by its caller with a
bound strictly larger than the number of iterations the loop can perform
(each iteration consumes at least one byte / one list element), so the
fuel-exhaustion branch is unreachable.
-/

namespace Servox

/-! ## §1 Machine-integer primitives -/

/-- `x << s` on `u32` (release semantics): shift amount masked mod 32,
overflowing bits discarded. -/
def shlU32 (x s : Nat) : Nat := (x <<< (s % 32)) % 2 ^ 32

/-- Read byte `i` of a byte buffer (`binary[i]` on a `Vec<u8>`). -/
def byteAt (w : List Nat) (i : Nat) : Nat := w.getD i 0 % 256

/-! ## §2 `read_leb128_u32` (wasm_compiler.rs:1137-1163)

The loop body: stop if `pos >= data.len()`; read a byte, advance, accumulate
`result |= (byte & 0x7F) << shift`, `shift += 7`; stop when the continuation
bit is clear or `shift >= 32`.  The shift guard bounds the loop at 5
iterations, so fuel 5 is never exhausted. -/

def readLebAux (data : List Nat) : Nat → Nat → Nat → Nat → Nat × Nat
  | 0, result, _, pos => (result, pos)
  | fuel + 1, result, shift, pos =>
    if pos < data.length then
      let byte := byteAt data pos
      let result' := result ||| shlU32 (byte % 128) shift
      let shift' := shift + 7
      if byte < 128 then (result', pos + 1)
      else if 32 ≤ shift' then (result', pos + 1)
      else readLebAux data fuel result' shift' (pos + 1)
    else (result, pos)

/-- `read_leb128_u32(data) -> (value, bytes_consumed)`. -/
def read_leb128_u32 (data : List Nat) : Nat × Nat := readLebAux data 5 0 0 0

/-! ## §3 Minimal LEB128 encoding (specification side)

`lebEncAux` is the minimal unsigned LEB128 encoding, with enough fuel for any
value below `128 ^ fuel`; values in this development are below `2 ^ 32 ≤ 128 ^ 5`.
It also mirrors the encoder loop at wasm_compiler.rs:790-801. -/

def lebEncAux : Nat → Nat → List Nat
  | 0, n => [n % 128]
  | fuel + 1, n => if n < 128 then [n] else (n % 128 + 128) :: lebEncAux fuel (n / 128)

def lebEnc (n : Nat) : List Nat := lebEncAux 5 n

/-! ## §4 `inject_datacount_section` (wasm_compiler.rs:708-814) -/

/-- The LEB-size decode loop at wasm_compiler.rs:731-746.  Returns `none` when
`j` runs off the end of the buffer (the Rust code `return`s, leaving the binary
unchanged); otherwise the decoded size and the position after it. -/
def sizeLoop (b : List Nat) : Nat → Nat → Nat → Nat → Option (Nat × Nat)
  | 0, _, _, _ => none
  | fuel + 1, j, size, shift =>
    if j < b.length then
      let byte := byteAt b j
      let size' := size ||| shlU32 (byte % 128) shift
      if byte < 128 then some (size', j + 1)
      else sizeLoop b fuel (j + 1) size' (shift + 7)
    else none

/-- The data-segment-count decode loop at wasm_compiler.rs:752-762:
`while k < j + size && k < binary.len()`. -/
def countLoop (b : List Nat) : Nat → Nat → Nat → Nat → Nat → Nat
  | 0, _, _, count, _ => count
  | fuel + 1, k, kend, count, shift =>
    if k < kend ∧ k < b.length then
      let byte := byteAt b k
      let count' := count ||| shlU32 (byte % 128) shift
      if byte < 128 then count'
      else countLoop b fuel (k + 1) kend count' (shift + 7)
    else count

/-- The section scan loop at wasm_compiler.rs:721-777.  `none` models the two
early `return`s (`id == 12` found, or a truncated size varint); `some` carries
the accumulated `(data_segment_count, code_section_offset)` when the loop
exits normally. -/
def scanLoop (b : List Nat) : Nat → Nat → Nat → Option Nat → Option (Nat × Option Nat)
  | 0, _, count, codeOff => some (count, codeOff)
  | fuel + 1, i, count, codeOff =>
    if i < b.length then
      let sid := byteAt b i
      if sid = 12 then none
      else
        match sizeLoop b (b.length + 1) (i + 1) 0 0 with
        | none => none
        | some (size, j) =>
          let count' := if sid = 11 then countLoop b (b.length + 1) j (j + size) 0 0 else count
          let codeOff' := if sid = 10 ∧ codeOff = none then some i else codeOff
          let i' := j + size
          if b.length ≤ i' ∨ 10000 < i' then some (count', codeOff')
          else scanLoop b fuel i' count' codeOff'
    else some (count, codeOff)

/-- The synthesized datacount section (wasm_compiler.rs:786-805):
`[12, 1, count]` for small counts, else `12 :: len :: LEB(count)`. -/
def datacountSec (count : Nat) : List Nat :=
  if count < 128 then [12, 1, count]
  else 12 :: (lebEnc count).length :: lebEnc count

/-- `inject_datacount_section` (wasm_compiler.rs:708-814).  Returns the input
unchanged unless data segments exist, no id-12 section was seen, and a code
section offset was found, in which case the datacount section is spliced in
immediately before the code section. -/
def inject_datacount_section (binary : List Nat) : List Nat :=
  if binary.length < 8 then binary
  else if binary.take 4 ≠ [0, 97, 115, 109] then binary
  else
    match scanLoop binary (binary.length + 1) 8 0 none with
    | none => binary
    | some (count, codeOff) =>
      if 0 < count then
        match codeOff with
        | some o => binary.take o ++ datacountSec count ++ binary.drop o
        | none => binary
      else binary

/-! ## §5 Specification-side view of a binary module

A well-formed binary module (spec §3, §6) is an 8-byte header followed by
encoded sections `(id, size varint, payload)`.  `scanSections` is the
straightforward fold over that section list which the byte-level `scanLoop`
is proved to implement, and `payloadCount` is the LEB decode of a data
section's leading count, phrased directly on the payload. -/

def wasmHeader : List Nat := [0, 97, 115, 109, 1, 0, 0, 0]

def encSec (s : Nat × List Nat) : List Nat := s.1 :: (lebEnc s.2.length ++ s.2)

def encSecs (ss : List (Nat × List Nat)) : List Nat := (ss.map encSec).flatten

/-- Start offsets of the encoded sections, the first starting at `i`. -/
def secStartsFrom (i : Nat) : List (Nat × List Nat) → List Nat
  | [] => []
  | s :: rest => i :: secStartsFrom (i + (encSec s).length) rest

/-- `countLoop` rephrased on the payload itself. -/
def payloadCount : List Nat → Nat → Nat → Nat
  | [], count, _ => count
  | byte :: rest, count, shift =>
    let b := byte % 256
    let count' := count ||| shlU32 (b % 128) shift
    if b < 128 then count' else payloadCount rest count' (shift + 7)

/-- The section-level content of the byte scan: the data-segment count comes
from the (last) id-11 section, the code offset is the start of the first
id-10 section. -/
def scanSections : List (Nat × List Nat) → Nat → Nat → Option Nat → Nat × Option Nat
  | [], _, count, codeOff => (count, codeOff)
  | s :: rest, i, count, codeOff =>
    let count' := if s.1 = 11 then payloadCount s.2 0 0 else count
    let codeOff' := if s.1 = 10 ∧ codeOff = none then some i else codeOff
    scanSections rest (i + (encSec s).length) count' codeOff'

/-! ## §6 Name-section parsing (wasm_compiler.rs:989-1134)

`parse_name_section` is modelled `Option`-valued: `none` is a Rust panic.
The only slice in it whose bounds are not checked before use is
`&wasm_binary[pos..subsection_end]` at line 1055 (`subsection_end` is never
compared with the buffer length); every `&buf[pos..]` start-only slice has
`pos ≤ len` because `read_leb128_u32` consumes at most the slice's length,
so those are modelled with `List.drop`.  The `HashMap` keyed by the string
`"type_{idx}"` is modelled as an association list keyed by `idx` (the key
format is injective in `idx`); field names stay raw byte lists, with the
`std::str::from_utf8` admissibility check modelled by `validUtf8`. -/

/-- Rust range slice `&w[a..b]`: panics (`none`) when `a > b` or `b > len`. -/
def sliceRange (w : List Nat) (a b : Nat) : Option (List Nat) :=
  if a ≤ b ∧ b ≤ w.length then some ((w.drop a).take (b - a)) else none

def contByte (b : Nat) : Bool := 128 ≤ b ∧ b < 192

/-- UTF-8 validity of a byte list (what `std::str::from_utf8(..).is_ok()`
checks): leading-byte ranges with the E0/ED/F0/F4 second-byte restrictions. -/
def validUtf8 : List Nat → Bool
  | [] => true
  | b :: rest =>
    if b < 128 then validUtf8 rest
    else if 194 ≤ b ∧ b ≤ 223 then
      match rest with
      | c1 :: r => contByte c1 && validUtf8 r
      | [] => false
    else if b = 224 then
      match rest with
      | c1 :: c2 :: r => (if 160 ≤ c1 ∧ c1 < 192 then true else false) && contByte c2 && validUtf8 r
      | _ => false
    else if 225 ≤ b ∧ b ≤ 236 then
      match rest with
      | c1 :: c2 :: r => contByte c1 && contByte c2 && validUtf8 r
      | _ => false
    else if b = 237 then
      match rest with
      | c1 :: c2 :: r => (if 128 ≤ c1 ∧ c1 < 160 then true else false) && contByte c2 && validUtf8 r
      | _ => false
    else if 238 ≤ b ∧ b ≤ 239 then
      match rest with
      | c1 :: c2 :: r => contByte c1 && contByte c2 && validUtf8 r
      | _ => false
    else if b = 240 then
      match rest with
      | c1 :: c2 :: c3 :: r => (if 144 ≤ c1 ∧ c1 < 192 then true else false) && contByte c2 && contByte c3 && validUtf8 r
      | _ => false
    else if 241 ≤ b ∧ b ≤ 243 then
      match rest with
      | c1 :: c2 :: c3 :: r => contByte c1 && contByte c2 && contByte c3 && validUtf8 r
      | _ => false
    else if b = 244 then
      match rest with
      | c1 :: c2 :: c3 :: r => (if 128 ≤ c1 ∧ c1 < 144 then true else false) && contByte c2 && contByte c3 && validUtf8 r
      | _ => false
    else false

/-- `HashMap::insert`: replace the value at an existing key or append. -/
def assocInsert {α : Type} (m : List (Nat × α)) (k : Nat) (v : α) : List (Nat × α) :=
  if m.any (fun e => e.1 = k) then m.map (fun e => if e.1 = k then (k, v) else e)
  else m ++ [(k, v)]

/-- Inner field loop of `parse_field_names_subsection` (wasm_compiler.rs:1104-1128).
Returns the accumulated names and the final position. -/
def fnLoop (data : List Nat) : Nat → Nat → List (List Nat) → List (List Nat) × Nat
  | 0, pos, acc => (acc, pos)
  | fc + 1, pos, acc =>
    if data.length ≤ pos then (acc, pos)
    else
      let r1 := read_leb128_u32 (data.drop pos)
      let pos := pos + r1.2
      let r2 := read_leb128_u32 (data.drop pos)
      let nameLen := r2.1
      let pos := pos + r2.2
      if data.length < pos + nameLen then (acc, pos)
      else
        let nb := (data.drop pos).take nameLen
        let pos := pos + nameLen
        fnLoop data fc pos (if validUtf8 nb then acc ++ [nb] else acc)

/-- Outer type loop of `parse_field_names_subsection` (wasm_compiler.rs:1088-1131). -/
def pfLoop (data : List Nat) : Nat → Nat → List (Nat × List (List Nat)) → List (Nat × List (List Nat))
  | 0, _, m => m
  | tc + 1, pos, m =>
    if data.length ≤ pos then m
    else
      let r1 := read_leb128_u32 (data.drop pos)
      let typeIdx := r1.1
      let pos := pos + r1.2
      let r2 := read_leb128_u32 (data.drop pos)
      let fieldCount := r2.1
      let pos := pos + r2.2
      let fl := fnLoop data fieldCount pos []
      pfLoop data tc fl.2 (assocInsert m typeIdx fl.1)

/-- `parse_field_names_subsection` (wasm_compiler.rs:1079-1134): total, all its
slices are bounds-checked before use. -/
def parse_field_names_subsection (data : List Nat) : List (Nat × List (List Nat)) :=
  let r := read_leb128_u32 data
  pfLoop data r.1 r.2 []

/-- Subsection loop inside the "name" custom section (wasm_compiler.rs:1040-1059).
`none` models the panic of `&wasm_binary[pos..subsection_end]` when
`subsection_end` exceeds the buffer length. -/
def subLoop (w : List Nat) : Nat → Nat → Nat → List (Nat × List (List Nat)) → Option (List (Nat × List (List Nat)))
  | 0, _, _, m => some m
  | fuel + 1, pos, secEnd, m =>
    if pos < secEnd then
      if secEnd ≤ pos + 1 then some m
      else
        let sid := byteAt w pos
        let pos := pos + 1
        let r := read_leb128_u32 (w.drop pos)
        let pos := pos + r.2
        let subEnd := pos + r.1
        if sid = 12 then
          match sliceRange w pos subEnd with
          | none => none
          | some payload => subLoop w fuel subEnd secEnd (parse_field_names_subsection payload)
        else subLoop w fuel subEnd secEnd m
    else some m

/-- Top-level section loop of `parse_name_section` (wasm_compiler.rs:1005-1068). -/
def nsLoop (w : List Nat) : Nat → Nat → List (Nat × List (List Nat)) → Option (List (Nat × List (List Nat)))
  | 0, _, m => some m
  | fuel + 1, pos, m =>
    if pos < w.length then
      if w.length ≤ pos + 1 then some m
      else
        let sid := byteAt w pos
        let pos := pos + 1
        let r := read_leb128_u32 (w.drop pos)
        let secSize := r.1
        let pos := pos + r.2
        if sid = 0 then
          let secEnd := pos + secSize
          if w.length < secEnd then some m
          else
            let rn := read_leb128_u32 (w.drop pos)
            let nameLen := rn.1
            let pos := pos + rn.2
            if w.length < pos + nameLen then some m
            else
              let nm := (w.drop pos).take nameLen
              let pos := pos + nameLen
              if nm = [110, 97, 109, 101] then subLoop w (w.length + 1) pos secEnd m
              else nsLoop w fuel secEnd m
        else nsLoop w fuel (pos + secSize) m
    else some m

/-- `parse_name_section` (wasm_compiler.rs:989-1076), up to the final JSON
rendering: returns the field-names map, or `none` on a panic. -/
def parse_name_section (w : List Nat) : Option (List (Nat × List (List Nat))) :=
  if w.length < 8 then some [] else nsLoop w (w.length + 1) 8 []

/-! ## §7 String utilities for the textual pass

`List Char` models `&str` (see the header comment for the byte/char index
correspondence). -/

/-- UTF-8 encoding of one scalar value. -/
def utf8Char (c : Char) : List Nat :=
  let n := c.toNat
  if n < 128 then [n]
  else if n < 2048 then [192 + n / 64, 128 + n % 64]
  else if n < 65536 then [224 + n / 4096, 128 + n / 64 % 64, 128 + n % 64]
  else [240 + n / 262144, 128 + n / 4096 % 64, 128 + n / 64 % 64, 128 + n % 64]

/-- `str::as_bytes`. -/
def strBytes (s : List Char) : List Nat := (s.map utf8Char).flatten

/-- `str::len` (byte length). -/
def utf8Len (s : List Char) : Nat := (strBytes s).length

/-- Whitespace per `char::is_whitespace` (the Unicode White_Space set). -/
def isWSChar (c : Char) : Bool :=
  c.toNat ∈ ([9, 10, 11, 12, 13, 32, 133, 160, 5760, 8192, 8193, 8194, 8195,
    8196, 8197, 8198, 8199, 8200, 8201, 8202, 8232, 8233, 8239, 8287, 12288] : List Nat)

/-- `str::trim`. -/
def trimChars (s : List Char) : List Char :=
  ((s.dropWhile isWSChar).reverse.dropWhile isWSChar).reverse

/-- `str::find(pattern)`: index of the first occurrence. An empty pattern
matches at index 0, as in Rust. -/
def findSubAux (pat : List Char) : List Char → Nat → Option Nat
  | [], i => if pat = [] then some i else none
  | c :: rest, i =>
    if pat.isPrefixOf (c :: rest) then some i else findSubAux pat rest (i + 1)

def findSub (s pat : List Char) : Option Nat := findSubAux pat s 0

/-- `str::contains(pattern)`. -/
def containsSub (s pat : List Char) : Bool := (findSub s pat).isSome

/-- `str::starts_with(pattern)`. -/
def startsW (s pat : List Char) : Bool := pat.isPrefixOf s

/-- `str::replace(pat, repl)`: left-to-right, non-overlapping.  Fuel is the
string length; every step consumes at least one character (all call sites in
the pass use literal non-empty patterns, the `pat = []` guard is dead code). -/
def replaceAllAux (pat repl : List Char) : Nat → List Char → List Char
  | 0, s => s
  | _ + 1, [] => []
  | fuel + 1, c :: rest =>
    if pat.isPrefixOf (c :: rest) then repl ++ replaceAllAux pat repl fuel ((c :: rest).drop pat.length)
    else c :: replaceAllAux pat repl fuel rest

def replaceAll (s pat repl : List Char) : List Char :=
  if pat = [] then s else replaceAllAux pat repl s.length s

/-- Decimal rendering of a `Nat` (for `format!` of counters and lengths). -/
def natDigitsAux : Nat → Nat → List Char
  | 0, _ => []
  | fuel + 1, n =>
    if n < 10 then [Char.ofNat (48 + n)]
    else natDigitsAux fuel (n / 10) ++ [Char.ofNat (48 + n % 10)]

def natToStr (n : Nat) : List Char := natDigitsAux (n + 1) n

/-- `str::lines`: split at `'\n'`; every part that ended with a `'\n'` has one
trailing `'\r'` stripped; a final empty part (text ending in `'\n'`) yields no
line, a final non-empty part is kept as is (its `'\r'` is not stripped). -/
def splitNl : List Char → List (List Char)
  | [] => [[]]
  | c :: rest =>
    if c = '\n' then [] :: splitNl rest
    else
      match splitNl rest with
      | x :: xs => (c :: x) :: xs
      | [] => [[c]]

def stripCr (l : List Char) : List Char :=
  if l.getLast? = some '\x0d' then l.dropLast else l

def procParts : List (List Char) → List (List Char)
  | [] => []
  | [last] => if last = [] then [] else [last]
  | p :: rest => stripCr p :: procParts rest

def rustLines (s : List Char) : List (List Char) := procParts (splitNl s)

/-! ## §8 The type-lowering pass (wasm_compiler.rs:566-682) -/

/-- `transform_string_literal_to_data` (wasm_compiler.rs:643-682): rewrite the
first quoted literal after `struct.new` into an `array.new_data` expression,
returning `(line', optional data section, counter')`. -/
def transform_string_literal_to_data (line : List Char) (counter : Nat) :
    List Char × Option (List Char) × Nat :=
  match findSub line ("struct.new".toList) with
  | none => (line, none, counter)
  | some p =>
    let after := line.drop p
    match findSub after ['"'] with
    | none => (line, none, counter)
    | some q =>
      let absStart := p + q
      match findSub (after.drop (q + 1)) ['"'] with
      | none => (line, none, counter)
      | some e =>
        let litStart := absStart + 1
        let litEnd := absStart + 1 + e
        let content := (line.drop litStart).take (litEnd - litStart)
        let dataId := "$str_".toList ++ natToStr counter
        let dataSec := "(data ".toList ++ dataId ++ " \"".toList ++ content ++ "\")".toList
        let arrInit := "(array.new_data $string ".toList ++ dataId ++
          " (i32.const 0) (i32.const ".toList ++ natToStr (utf8Len content) ++ "))".toList
        (line.take absStart ++ arrInit ++ line.drop (litEnd + 1), some dataSec, counter + 1)

/-- The type declaration injected after the module opener
(wasm_compiler.rs:591-592). -/
def injText : List Char :=
  "  ;; String type: array of i8 (UTF-8)\n".toList ++
  "  (type $string (array (mut i8)))\n\n".toList

/-- The per-line loop of `transform_string_types` (wasm_compiler.rs:576-636),
threading `(in_module, string_type_added, string_counter, data_sections)` and
appending the recorded data sections after the last line. -/
def transformGo (hasStr : Bool) :
    List (List Char) → Bool → Bool → Nat → List (List Char) → List Char
  | [], _, _, _, dataSecs =>
    if dataSecs.isEmpty then []
    else '\n' :: "  ;; String data sections\n".toList ++
      (dataSecs.map (fun d => "  ".toList ++ d ++ ['\n'])).flatten
  | line :: rest, inMod, added, counter, dataSecs =>
    let trimmed := trimChars line
    if startsW trimmed ("(module".toList) then
      line ++ '\n' :: transformGo hasStr rest true added counter dataSecs
    else
      let inj := inMod && !added && !hasStr && !trimmed.isEmpty &&
        !startsW trimmed (";".toList)
      let pre := if inj then injText else []
      let added' := if inj then true else added
      let typeT :=
        if containsSub line ("string".toList) && !containsSub line ("$string".toList) &&
            !containsSub line ("(type $string".toList) then
          replaceAll (replaceAll (replaceAll line
                ("(mut string)".toList) ("(mut (ref null $string))".toList))
              ("(param string)".toList) ("(param (ref null $string))".toList))
            ("(result string)".toList) ("(result (ref null $string))".toList)
        else line
      let lit :=
        if containsSub trimmed ("struct.new".toList) && containsSub trimmed ['"'] then
          transform_string_literal_to_data typeT counter
        else (typeT, none, counter)
      let dataSecs' :=
        match lit.2.1 with
        | some d => dataSecs ++ [d]
        | none => dataSecs
      pre ++ lit.1 ++ '\n' :: transformGo hasStr rest inMod added' lit.2.2 dataSecs'

/-- `transform_string_types` (wasm_compiler.rs:566-639). -/
def transform_string_types (source : List Char) : List Char :=
  transformGo (containsSub source ("(type $string".toList)) (rustLines source)
    false false 0 []

/-- Modelled from the spec: §4.4 step 1, "unless the source already defines the
same type name — in which case no injection occurs (idempotence)".  This is the
lowering pass with the type-declaration injection removed; `transform_string_types`
is proved to coincide with it whenever the source already declares `$string`. -/
def transformGoNI :
    List (List Char) → Bool → Nat → List (List Char) → List Char
  | [], _, _, dataSecs =>
    if dataSecs.isEmpty then []
    else '\n' :: "  ;; String data sections\n".toList ++
      (dataSecs.map (fun d => "  ".toList ++ d ++ ['\n'])).flatten
  | line :: rest, inMod, counter, dataSecs =>
    let trimmed := trimChars line
    if startsW trimmed ("(module".toList) then
      line ++ '\n' :: transformGoNI rest true counter dataSecs
    else
      let typeT :=
        if containsSub line ("string".toList) && !containsSub line ("$string".toList) &&
            !containsSub line ("(type $string".toList) then
          replaceAll (replaceAll (replaceAll line
                ("(mut string)".toList) ("(mut (ref null $string))".toList))
              ("(param string)".toList) ("(param (ref null $string))".toList))
            ("(result string)".toList) ("(result (ref null $string))".toList)
        else line
      let lit :=
        if containsSub trimmed ("struct.new".toList) && containsSub trimmed ['"'] then
          transform_string_literal_to_data typeT counter
        else (typeT, none, counter)
      let dataSecs' :=
        match lit.2.1 with
        | some d => dataSecs ++ [d]
        | none => dataSecs
      lit.1 ++ '\n' :: transformGoNI rest inMod lit.2.2 dataSecs'

/-- The injection-free reference pass. -/
def transformNoInjection (source : List Char) : List Char :=
  transformGoNI (rustLines source) false 0 []

/-! ## §9 `compile_wat_internal` (wasm_compiler.rs:685-703) and the cache -/

/-- `inject_gc_accessors` (wasm_compiler.rs:817-852): returns the binary
unchanged (`Ok(wasm_binary.to_vec())`). -/
def inject_gc_accessors (w : List Nat) : Option (List Nat) := some w

/-- `compile_wat_internal`, with the external `wat::parse_str` encoder as a
parameter (`none` = parse error).  Input whose first 4 bytes are `\0asm` is
used directly; otherwise the *source itself* is handed to the encoder.  The
result then passes through `inject_datacount_section` and
`inject_gc_accessors`. -/
def compile_wat_internal (parse : List Char → Option (List Nat))
    (source : List Char) : Option (List Nat) :=
  let sb := strBytes source
  let bin? := if 4 ≤ sb.length ∧ sb.take 4 = [0, 97, 115, 109] then some sb else parse source
  match bin? with
  | none => none
  | some w => inject_gc_accessors (inject_datacount_section w)

/-- `HashMap::insert` on the compilation cache. -/
def cacheInsert (c : List (Nat × List Nat)) (k : Nat) (v : List Nat) :
    List (Nat × List Nat) :=
  if c.any (fun e => e.1 = k) then c.map (fun e => if e.1 = k then (k, v) else e)
  else c ++ [(k, v)]

/-- The cache store step of `compile_wat_to_js` (wasm_compiler.rs:72-77):
`if cache.len() > 100 { cache.clear(); } cache.insert(cache_key, binary)`. -/
def cacheStore (c : List (Nat × List Nat)) (k : Nat) (v : List Nat) :
    List (Nat × List Nat) :=
  let c' := if 100 < c.length then [] else c
  cacheInsert c' k v

/-! ## §10 Concrete inputs used by counterexamples and witnesses -/

/-- A binary module: header, data section `(11, [1, 0])` declaring 1 segment,
code section `(10, [0])`, no datacount section.  All bytes are < 128, so this
is also a valid UTF-8 `&str`. -/
def dataThenCode : List Nat := [0, 97, 115, 109, 1, 0, 0, 0, 11, 3, 1, 0, 0, 10, 1, 0]

/-- The same module with the code section *before* the data section. -/
def codeThenData : List Nat := [0, 97, 115, 109, 1, 0, 0, 0, 10, 1, 0, 11, 3, 1, 0, 0]

/-- `dataThenCode` viewed as source text (its bytes are ASCII). -/
def binSrcChars : List Char := dataThenCode.map Char.ofNat

/-- A buffer whose "name" custom section declares a field-names subsection
(id 12) of size 127 while only 0 payload bytes remain: `parse_name_section`
slices `&wasm_binary[17..144]` out of a 17-byte buffer. -/
def badNameInput : List Nat :=
  [0, 97, 115, 109, 1, 0, 0, 0, 0, 7, 4, 110, 97, 109, 101, 12, 127]

/-- An encoder stub distinguishing its input: one byte, the source length. -/
def lenParse (s : List Char) : Option (List Nat) := some [s.length % 256]

/-- A tiny module source with no string usage. -/
def cexSrc : List Char := "(module\nx\n)".toList

/-- Iterated cache stores with distinct fingerprints and empty binaries. -/
def storeFold (ks : List Nat) : List (Nat × List Nat) :=
  ks.foldl (fun c k => cacheStore c k []) []

/-! ## §11 C9: `read_leb128_u32` bounds -/

lemma readLebAux_snd_le (data : List Nat) :
    ∀ fuel pos r s, pos ≤ data.length →
      (readLebAux data fuel r s pos).2 ≤ min (pos + fuel) data.length := by
  intro fuel
  induction fuel with
  | zero => intro pos r s h; simpa [readLebAux] using h
  | succ n ih =>
    intro pos r s h
    simp only [readLebAux]
    by_cases hp : pos < data.length
    · rw [if_pos hp]
      by_cases hb : byteAt data pos < 128
      · rw [if_pos hb]; simp; omega
      · rw [if_neg hb]
        by_cases hs : 32 ≤ s + 7 + 7 - 7
        · rw [if_pos (by omega : 32 ≤ s + 7)]; simp; omega
        · rw [if_neg (by omega : ¬ 32 ≤ s + 7)]
          have := ih (pos + 1) (r ||| shlU32 (byteAt data pos % 128) s) (s + 7) (by omega)
          omega
    · rw [if_neg hp]; simp; omega

lemma readLebAux_cont (data : List Nat) (fuel r s pos : Nat)
    (hp : pos < data.length) (hb : 128 ≤ byteAt data pos) (hs : s + 7 < 32) :
    readLebAux data (fuel + 1) r s pos =
      readLebAux data fuel (r ||| shlU32 (byteAt data pos % 128) s) (s + 7) (pos + 1) := by
  simp only [readLebAux]
  rw [if_pos hp, if_neg (by omega), if_neg (by omega)]

lemma readLebAux_stop32 (data : List Nat) (fuel r s pos : Nat)
    (hp : pos < data.length) (hb : 128 ≤ byteAt data pos) (hs : 32 ≤ s + 7) :
    (readLebAux data (fuel + 1) r s pos).2 = pos + 1 := by
  simp only [readLebAux]
  rw [if_pos hp, if_neg (by omega), if_pos hs]

/-- C9: for every byte slice, `read_leb128_u32` consumes at most
`min 5 (slice length)` bytes, and when at least 5 bytes are available and the
first five all carry the continuation bit, it stops after exactly 5 bytes. -/
theorem read_leb128_u32_consumption (data : List Nat) :
    (read_leb128_u32 data).2 ≤ min 5 data.length ∧
      (5 ≤ data.length → (∀ i, i < 5 → 128 ≤ byteAt data i) →
        (read_leb128_u32 data).2 = 5) := by
  constructor
  · simpa using readLebAux_snd_le data 5 0 0 0 (Nat.zero_le _)
  · intro hlen hcont
    have h0 := hcont 0 (by omega)
    have h1 := hcont 1 (by omega)
    have h2 := hcont 2 (by omega)
    have h3 := hcont 3 (by omega)
    have h4 := hcont 4 (by omega)
    unfold read_leb128_u32
    rw [readLebAux_cont data _ _ _ _ (by omega) h0 (by omega),
      readLebAux_cont data _ _ _ _ (by omega) h1 (by omega),
      readLebAux_cont data _ _ _ _ (by omega) h2 (by omega),
      readLebAux_cont data _ _ _ _ (by omega) h3 (by omega),
      readLebAux_stop32 data _ _ _ _ (by omega) h4 (by omega)]

/-- Witness for C9 at a concrete slice: five continuation bytes and a spare. -/
theorem read_leb128_u32_consumption_witness :
    (read_leb128_u32 [128, 129, 130, 131, 132, 99]).2 ≤
        min 5 ([128, 129, 130, 131, 132, 99] : List Nat).length ∧
      (read_leb128_u32 [128, 129, 130, 131, 132, 99]).2 = 5 :=
  ⟨(read_leb128_u32_consumption [128, 129, 130, 131, 132, 99]).1,
    (read_leb128_u32_consumption [128, 129, 130, 131, 132, 99]).2 (by decide)
      (by decide)⟩

/-! ## §12 C5: the name-section parser panics on a crafted input -/

/-- C5 (code bug): on `badNameInput` — a well-delimited custom section named
"name" whose field-names subsection announces 127 payload bytes with none
remaining — `parse_name_section` evaluates to `none`, i.e. the Rust code
panics slicing `&wasm_binary[17..144]` on a 17-byte buffer instead of
degrading silently. -/
theorem parse_name_section_panics_on_truncated_subsection :
    parse_name_section badNameInput = none := by decide

/-! ## §13 C4: cache eviction boundary -/

set_option maxRecDepth 40000 in
/-- C4 counterexample: after 101 distinct stores into an empty cache the cache
holds 101 entries, not 1 — the clear-before-insert fires only when the size
already *exceeds* 100. -/
theorem cache_after_101_stores_not_one :
    (storeFold (List.range 101)).length ≠ 1 := by decide

set_option maxRecDepth 40000 in
/-- C4 amended: 101 distinct stores leave 101 entries; the full clear happens
on the 102nd store (the first that finds more than 100 entries), leaving
exactly 1 entry after it. -/
theorem cache_clears_on_102nd_store :
    (storeFold (List.range 101)).length = 101 ∧
      (storeFold (List.range 102)).length = 1 := by decide

/-! ## §14 C6: data section after the code section still triggers injection -/

/-- C6 counterexample: with the code section first and the data section (1
segment) after it, the augmenter does *not* return the binary unchanged — it
splices the datacount section in before the code section. -/
theorem inject_code_before_data_changes_binary :
    inject_datacount_section codeThenData ≠ codeThenData := by decide

/-! ## §15 C2: already-binary input is not returned byte-identical -/

/-- C2 counterexample: `dataThenCode` starts with the magic prefix, yet the
pipeline returns it with a datacount section spliced in, not byte-identical. -/
theorem compile_binary_input_not_identity :
    compile_wat_internal (fun _ => none) binSrcChars ≠ some (strBytes binSrcChars) := by
  decide

/-- C2 amended: magic-prefixed input bypasses the encoder (no re-encoding) and
is returned with only the binary augmenter applied; it is byte-identical
exactly when the datacount injection is a no-op on it. -/
theorem compile_binary_input_passthrough_augmented
    (parse : List Char → Option (List Nat)) (source : List Char)
    (h4 : 4 ≤ (strBytes source).length)
    (hm : (strBytes source).take 4 = [0, 97, 115, 109]) :
    compile_wat_internal parse source =
      some (inject_datacount_section (strBytes source)) := by
  simp only [compile_wat_internal, inject_gc_accessors]
  rw [if_pos ⟨h4, hm⟩]

/-- Witness for the amended C2 at `binSrcChars`. -/
theorem compile_binary_input_passthrough_augmented_witness :
    compile_wat_internal (fun _ => none) binSrcChars =
      some (inject_datacount_section (strBytes binSrcChars)) :=
  compile_binary_input_passthrough_augmented _ _ (by decide) (by decide)

/-! ## §16 C1: the pipeline does not run the lowering pass -/

/-- C1 counterexample: with an encoder that reports its input's length, the
pipeline's output differs from what compiling the lowered source would give —
the encoder receives the original source, not `transform_string_types` of it. -/
theorem compile_does_not_lower_cex :
    compile_wat_internal lenParse cexSrc ≠
      (lenParse (transform_string_types cexSrc)).bind
        (fun w => some (inject_datacount_section w)) := by decide

/-- C1 amended: for textual (non-magic-prefixed) input the pipeline hands the
*original* source text to the external encoder and post-processes its output;
`transform_string_types` is never invoked on the compile path. -/
theorem compile_textual_input_uses_original_source
    (parse : List Char → Option (List Nat)) (source : List Char)
    (h : ¬(4 ≤ (strBytes source).length ∧
      (strBytes source).take 4 = [0, 97, 115, 109])) :
    compile_wat_internal parse source =
      (parse source).bind (fun w => some (inject_datacount_section w)) := by
  simp only [compile_wat_internal, inject_gc_accessors]
  rw [if_neg h]
  cases parse source <;> rfl

/-- Witness for the amended C1 at a concrete textual source. -/
theorem compile_textual_input_uses_original_source_witness :
    compile_wat_internal lenParse cexSrc =
      (lenParse cexSrc).bind (fun w => some (inject_datacount_section w)) :=
  compile_textual_input_uses_original_source lenParse cexSrc (by decide)

/-! ## §17 List and bit-arithmetic helpers -/

lemma getD_of_drop {b : List Nat} {i x : Nat} {l : List Nat}
    (h : b.drop i = x :: l) : b.getD i 0 = x := by
  induction b generalizing i with
  | nil => simp at h
  | cons a t ih =>
    cases i with
    | zero => simp at h ⊢; exact h.1
    | succ m =>
      simp only [List.drop_succ_cons] at h
      simpa using ih h

lemma drop_succ_of_drop {b : List Nat} {i x : Nat} {l : List Nat}
    (h : b.drop i = x :: l) : b.drop (i + 1) = l := by
  have : b.drop (i + 1) = (b.drop i).drop 1 := by
    rw [List.drop_drop]
  rw [this, h]
  rfl

lemma lt_length_of_drop_cons {b : List Nat} {i x : Nat} {l : List Nat}
    (h : b.drop i = x :: l) : i < b.length := by
  by_contra hc
  push_neg at hc
  rw [List.drop_eq_nil_of_le hc] at h
  exact absurd h (by simp)

lemma length_le_of_drop_eq {b : List Nat} {i : Nat} {u v : List Nat}
    (h : b.drop i = u ++ v) : u.length ≤ b.length := by
  have := congrArg List.length h
  simp [List.length_drop] at this
  omega

/-- On disjoint bit ranges, `|||` is `+`. -/
lemma lor_mul_two_pow {a d k : Nat} (h : a < 2 ^ k) :
    a ||| 2 ^ k * d = a + 2 ^ k * d := by
  apply Nat.eq_of_testBit_eq
  intro j
  rw [Nat.testBit_lor, Nat.add_comm, Nat.testBit_mul_pow_two_add d h j,
    Nat.testBit_mul_pow_two]
  rcases Nat.lt_or_ge j k with hj | hj
  · simp [hj, Nat.not_le_of_lt hj]
  · have ha : Nat.testBit a j = false :=
      Nat.testBit_lt_two_pow (Nat.lt_of_lt_of_le h (Nat.pow_le_pow_right (by norm_num) hj))
    simp [ha, hj, Nat.not_lt_of_le hj]

lemma shlU32_eq {d s : Nat} (hlt : d * 2 ^ s < 2 ^ 32) :
    shlU32 d s = 2 ^ s * d := by
  rcases Nat.eq_zero_or_pos d with rfl | hd
  · simp [shlU32]
  · have hs : s < 32 := by
      by_contra hsc
      push_neg at hsc
      have h1 : (2 : Nat) ^ 32 ≤ 2 ^ s := Nat.pow_le_pow_right (by norm_num) hsc
      have h2 : 2 ^ s ≤ d * 2 ^ s := Nat.le_mul_of_pos_left _ hd
      omega
    unfold shlU32
    rw [Nat.mod_eq_of_lt hs, Nat.shiftLeft_eq, Nat.mod_eq_of_lt hlt]
    ring

/-- One LEB-accumulation step: `acc |= (d << s)` is exact addition under the
running invariant. -/
lemma lor_shl_step {acc d s n : Nat} (hacc : acc < 2 ^ s) (hd : d ≤ n)
    (hall : acc + 2 ^ s * n < 2 ^ 32) :
    acc ||| shlU32 d s = acc + 2 ^ s * d := by
  have hlt : d * 2 ^ s < 2 ^ 32 := by
    calc d * 2 ^ s = 2 ^ s * d := Nat.mul_comm _ _
      _ ≤ 2 ^ s * n := Nat.mul_le_mul_left _ hd
      _ ≤ acc + 2 ^ s * n := Nat.le_add_left _ _
      _ < 2 ^ 32 := hall
  rw [shlU32_eq hlt, lor_mul_two_pow hacc]

/-! ## §18 LEB128 encode/decode round trips -/

lemma lebEncAux_length_le : ∀ g n, (lebEncAux g n).length ≤ g + 1 := by
  intro g
  induction g with
  | zero => intro n; simp [lebEncAux]
  | succ m ih =>
    intro n
    simp only [lebEncAux]
    split
    · simp
    · have := ih (n / 128)
      simp [List.length_cons]
      omega

/-- The running accumulation invariant carried through one digit. -/
lemma digit_invariants {size shift n : Nat} (hsz : size < 2 ^ shift)
    (hall : size + 2 ^ shift * n < 2 ^ 32) :
    size + 2 ^ shift * (n % 128) < 2 ^ (shift + 7) ∧
      size + 2 ^ shift * (n % 128) + 2 ^ (shift + 7) * (n / 128) =
        size + 2 ^ shift * n := by
  have hps : (2 : Nat) ^ (shift + 7) = 2 ^ shift * 128 := by
    rw [pow_add]; norm_num
  have hmod : n % 128 ≤ 127 := by omega
  have h1 : 2 ^ shift * (n % 128) ≤ 2 ^ shift * 127 := Nat.mul_le_mul_left _ hmod
  constructor
  · omega
  · have hsplit : 2 ^ shift * (n % 128) + 2 ^ (shift + 7) * (n / 128) =
        2 ^ shift * n := by
      rw [hps]
      calc 2 ^ shift * (n % 128) + 2 ^ shift * 128 * (n / 128)
          = 2 ^ shift * (n % 128 + 128 * (n / 128)) := by ring
        _ = 2 ^ shift * n := by rw [Nat.mod_add_div]
    omega

lemma sizeLoop_spec (b : List Nat) :
    ∀ (g n size shift j fuel : Nat) (rest : List Nat),
      n < 128 ^ g →
      b.drop j = lebEncAux g n ++ rest →
      size < 2 ^ shift →
      size + 2 ^ shift * n < 2 ^ 32 →
      (lebEncAux g n).length ≤ fuel →
      sizeLoop b fuel j size shift =
        some (size + 2 ^ shift * n, j + (lebEncAux g n).length) := by
  intro g
  induction g with
  | zero =>
    intro n size shift j fuel rest hn hdrop hsz hall hfuel
    have hn0 : n = 0 := by simp at hn; omega
    subst hn0
    simp only [lebEncAux, Nat.zero_mod] at hdrop hfuel ⊢
    obtain ⟨f, rfl⟩ : ∃ f, fuel = f + 1 := by
      refine ⟨fuel - 1, ?_⟩
      have h1 : 1 ≤ fuel := by simpa using hfuel
      omega
    simp only [sizeLoop]
    rw [if_pos (lt_length_of_drop_cons (by simpa using hdrop))]
    have hb : byteAt b j = 0 := by
      unfold byteAt
      rw [getD_of_drop (by simpa using hdrop)]
    rw [hb]
    have hz : size ||| shlU32 (0 % 128) shift = size := by
      simp [shlU32]
    rw [hz]
    simp
  | succ m ih =>
    intro n size shift j fuel rest hn hdrop hsz hall hfuel
    by_cases h128 : n < 128
    · simp only [lebEncAux, if_pos h128] at hdrop hfuel ⊢
      obtain ⟨f, rfl⟩ : ∃ f, fuel = f + 1 := by
        refine ⟨fuel - 1, ?_⟩
        have h1 : 1 ≤ fuel := by simpa using hfuel
        omega
      simp only [sizeLoop]
      rw [if_pos (lt_length_of_drop_cons (by simpa using hdrop))]
      have hb : byteAt b j = n := by
        unfold byteAt
        rw [getD_of_drop (by simpa using hdrop)]
        omega
      rw [hb, if_pos h128]
      have hlor : size ||| shlU32 (n % 128) shift = size + 2 ^ shift * n := by
        rw [Nat.mod_eq_of_lt h128]
        exact lor_shl_step hsz (le_refl n) hall
      rw [hlor]
      simp
    · simp only [lebEncAux, if_neg h128] at hdrop hfuel ⊢
      obtain ⟨f, rfl⟩ : ∃ f, fuel = f + 1 := ⟨fuel - 1, by simp at hfuel; omega⟩
      simp only [sizeLoop]
      rw [if_pos (lt_length_of_drop_cons (by simpa using hdrop))]
      have hb : byteAt b j = n % 128 + 128 := by
        unfold byteAt
        rw [getD_of_drop (by simpa using hdrop)]
        omega
      rw [hb, if_neg (by omega)]
      have hstep : size ||| shlU32 ((n % 128 + 128) % 128) shift =
          size + 2 ^ shift * (n % 128) := by
        have he : (n % 128 + 128) % 128 = n % 128 := by omega
        rw [he]
        exact lor_shl_step hsz (Nat.mod_le n 128) hall
      obtain ⟨hinv1, hinv2⟩ := digit_invariants hsz hall
      rw [hstep]
      have hdiv : n / 128 < 128 ^ m := by
        rw [Nat.div_lt_iff_lt_mul (by norm_num)]
        calc n < 128 ^ (m + 1) := hn
          _ = 128 ^ m * 128 := by rw [pow_succ]
      have hrec := ih (n / 128) (size + 2 ^ shift * (n % 128)) (shift + 7) (j + 1) f rest
        hdiv (drop_succ_of_drop (by simpa using hdrop)) hinv1 (by omega)
        (by simp at hfuel; omega)
      rw [hrec]
      simp only [Option.some.injEq, Prod.mk.injEq, List.length_cons]
      omega

/-- Wrapper of `sizeLoop_spec` at the canonical 5-digit encoding. -/
lemma sizeLoop_lebEnc (b : List Nat) {n j : Nat} {rest : List Nat} (fuel : Nat)
    (hn : n < 2 ^ 32) (hdrop : b.drop j = lebEnc n ++ rest)
    (hfuel : (lebEnc n).length ≤ fuel) :
    sizeLoop b fuel j 0 0 = some (n, j + (lebEnc n).length) := by
  have h5 : n < 128 ^ 5 := lt_of_lt_of_le hn (by norm_num)
  have := sizeLoop_spec b 5 n 0 0 j fuel rest h5 hdrop (by norm_num) (by simpa) hfuel
  simpa using this

lemma payloadCount_spec :
    ∀ (g n count shift : Nat) (rest : List Nat),
      n < 128 ^ g → count < 2 ^ shift → count + 2 ^ shift * n < 2 ^ 32 →
      payloadCount (lebEncAux g n ++ rest) count shift = count + 2 ^ shift * n := by
  intro g
  induction g with
  | zero =>
    intro n count shift rest hn hsz hall
    have hn0 : n = 0 := by simp at hn; omega
    subst hn0
    simp only [lebEncAux, Nat.zero_mod, List.cons_append, payloadCount]
    have hz : count ||| shlU32 (0 % 256 % 128) shift = count := by
      simp [shlU32]
    simp only [Nat.zero_mod] at hz
    simp [hz]
  | succ m ih =>
    intro n count shift rest hn hsz hall
    by_cases h128 : n < 128
    · simp only [lebEncAux, if_pos h128, List.cons_append, payloadCount]
      have hm : n % 256 = n := Nat.mod_eq_of_lt (by omega)
      rw [hm]
      have hlor : count ||| shlU32 (n % 128) shift = count + 2 ^ shift * n := by
        rw [Nat.mod_eq_of_lt h128]
        exact lor_shl_step hsz (le_refl n) hall
      simp [if_pos h128, hlor]
    · simp only [lebEncAux, if_neg h128, List.cons_append, payloadCount]
      have hm : (n % 128 + 128) % 256 = n % 128 + 128 := Nat.mod_eq_of_lt (by omega)
      rw [hm]
      have he : (n % 128 + 128) % 128 = n % 128 := by omega
      have hstep : count ||| shlU32 ((n % 128 + 128) % 128) shift =
          count + 2 ^ shift * (n % 128) := by
        rw [he]
        exact lor_shl_step hsz (Nat.mod_le n 128) hall
      obtain ⟨hinv1, hinv2⟩ := digit_invariants hsz hall
      rw [if_neg (by omega), hstep]
      have hdiv : n / 128 < 128 ^ m := by
        rw [Nat.div_lt_iff_lt_mul (by norm_num)]
        calc n < 128 ^ (m + 1) := hn
          _ = 128 ^ m * 128 := by rw [pow_succ]
      have hrec := ih (n / 128) (count + 2 ^ shift * (n % 128)) (shift + 7) rest
        hdiv hinv1 (by omega)
      rw [hrec]
      omega

/-- The data-section count decode: the leading LEB of the payload. -/
lemma payloadCount_lebEnc {n : Nat} (rest : List Nat) (hn : n < 2 ^ 32) :
    payloadCount (lebEnc n ++ rest) 0 0 = n := by
  have h5 : n < 128 ^ 5 := lt_of_lt_of_le hn (by norm_num)
  have := payloadCount_spec 5 n 0 0 rest h5 (by norm_num) (by simpa)
  simpa using this

/-- `countLoop` over bytes `j..j+|payload|` of the buffer is `payloadCount`
of the payload. -/
lemma countLoop_eq_payloadCount (b : List Nat) :
    ∀ (payload : List Nat) (tail : List Nat) (j fuel count shift : Nat),
      b.drop j = payload ++ tail →
      payload.length < fuel →
      countLoop b fuel j (j + payload.length) count shift =
        payloadCount payload count shift := by
  intro payload
  induction payload with
  | nil =>
    intro tail j fuel count shift hdrop hfuel
    obtain ⟨f, rfl⟩ : ∃ f, fuel = f + 1 := ⟨fuel - 1, by omega⟩
    simp [countLoop, payloadCount]
  | cons x xs ih =>
    intro tail j fuel count shift hdrop hfuel
    obtain ⟨f, rfl⟩ : ∃ f, fuel = f + 1 := ⟨fuel - 1, by omega⟩
    simp only [countLoop, payloadCount]
    have hlt : j < b.length := lt_length_of_drop_cons (by simpa using hdrop)
    rw [if_pos ⟨by simp, hlt⟩]
    have hb : byteAt b j = x % 256 := by
      unfold byteAt
      rw [getD_of_drop (by simpa using hdrop)]
    rw [hb]
    by_cases hx : x % 256 < 128
    · rw [if_pos hx, if_pos hx]
    · rw [if_neg hx, if_neg hx]
      have hkend : j + (x :: xs).length = (j + 1) + xs.length := by
        simp
        omega
      rw [hkend]
      exact ih tail (j + 1) f _ _ (drop_succ_of_drop (by simpa using hdrop))
        (by simp at hfuel; omega)

/-! ## §19 The scan loop implements the section-level fold -/

lemma encSecs_cons (s : Nat × List Nat) (t : List (Nat × List Nat)) :
    encSecs (s :: t) = encSec s ++ encSecs t := by
  simp [encSecs]

lemma encSecs_append (a c : List (Nat × List Nat)) :
    encSecs (a ++ c) = encSecs a ++ encSecs c := by
  simp [encSecs]

lemma encSec_length (s : Nat × List Nat) :
    (encSec s).length = 1 + (lebEnc s.2.length).length + s.2.length := by
  simp [encSec]
  omega

/-- One unfolding of the scan loop when the section id is not 12 and the size
varint decodes. -/
lemma scanLoop_step (b : List Nat) (fuel i count : Nat) (codeOff : Option Nat)
    (hi : i < b.length) (h12 : byteAt b i ≠ 12) {size j : Nat}
    (hsz : sizeLoop b (b.length + 1) (i + 1) 0 0 = some (size, j)) :
    scanLoop b (fuel + 1) i count codeOff =
      if b.length ≤ j + size ∨ 10000 < j + size then
        some ((if byteAt b i = 11 then countLoop b (b.length + 1) j (j + size) 0 0 else count),
          (if byteAt b i = 10 ∧ codeOff = none then some i else codeOff))
      else scanLoop b fuel (j + size)
        (if byteAt b i = 11 then countLoop b (b.length + 1) j (j + size) 0 0 else count)
        (if byteAt b i = 10 ∧ codeOff = none then some i else codeOff) := by
  simp only [scanLoop]
  rw [if_pos hi, if_neg h12, hsz]

lemma scanLoop_eq_scanSections (b : List Nat) :
    ∀ (ss : List (Nat × List Nat)) (rest : List Nat) (i count : Nat)
      (codeOff : Option Nat) (fuel : Nat),
      b.drop i = encSecs ss ++ rest →
      (∀ s ∈ ss, s.1 < 256 ∧ s.1 ≠ 12 ∧ s.2.length < 2 ^ 32) →
      (∀ o ∈ secStartsFrom i ss, o ≤ 10000) →
      (b.length ≤ i + (encSecs ss).length ∨ 10000 < i + (encSecs ss).length) →
      (ss = [] → b.length ≤ i) →
      ss.length < fuel →
      scanLoop b fuel i count codeOff = some (scanSections ss i count codeOff) := by
  intro ss
  induction ss with
  | nil =>
    intro rest i count codeOff fuel hdrop hids hstarts hbreak hnil hfuel
    obtain ⟨f, rfl⟩ : ∃ f, fuel = f + 1 := ⟨fuel - 1, by omega⟩
    have hge : b.length ≤ i := hnil rfl
    simp only [scanLoop, scanSections]
    rw [if_neg (by omega)]
  | cons s tail ih =>
    intro rest i count codeOff fuel hdrop hids hstarts hbreak hnil hfuel
    obtain ⟨f, rfl⟩ : ∃ f, fuel = f + 1 := ⟨fuel - 1, by omega⟩
    obtain ⟨hid256, hid12, hplen⟩ := hids s (by simp)
    have hdrop1 : b.drop i =
        s.1 :: ((lebEnc s.2.length ++ s.2) ++ (encSecs tail ++ rest)) := by
      rw [hdrop, encSecs_cons]
      simp [encSec, List.append_assoc]
    have hi : i < b.length := lt_length_of_drop_cons hdrop1
    have hsid : byteAt b i = s.1 := by
      unfold byteAt
      rw [getD_of_drop hdrop1]
      exact Nat.mod_eq_of_lt hid256
    have hdrop2 : b.drop (i + 1) = lebEnc s.2.length ++ (s.2 ++ (encSecs tail ++ rest)) := by
      have h := drop_succ_of_drop hdrop1
      rw [h, List.append_assoc]
    have hlebfuel : (lebEnc s.2.length).length ≤ b.length + 1 := by
      have := length_le_of_drop_eq hdrop2
      omega
    have hsize := sizeLoop_lebEnc b (b.length + 1) hplen hdrop2 hlebfuel
    have hdrop3 : b.drop (i + 1 + (lebEnc s.2.length).length) =
        s.2 ++ (encSecs tail ++ rest) := by
      rw [← List.drop_drop, hdrop2, List.drop_left]
    have hdrop4 : b.drop (i + (encSec s).length) = encSecs tail ++ rest := by
      rw [show i + (encSec s).length =
            i + 1 + (lebEnc s.2.length).length + s.2.length from by
          rw [encSec_length]; omega,
        ← List.drop_drop, hdrop3, List.drop_left]
    have hi'eq : i + 1 + (lebEnc s.2.length).length + s.2.length =
        i + (encSec s).length := by
      rw [encSec_length]; omega
    have hcount : (if s.1 = 11 then
        countLoop b (b.length + 1) (i + 1 + (lebEnc s.2.length).length)
          (i + 1 + (lebEnc s.2.length).length + s.2.length) 0 0 else count) =
        (if s.1 = 11 then payloadCount s.2 0 0 else count) := by
      by_cases h11 : s.1 = 11
      · simp only [if_pos h11]
        exact countLoop_eq_payloadCount b s.2 (encSecs tail ++ rest) _ _ 0 0 hdrop3
          (by have := length_le_of_drop_eq hdrop3; omega)
      · simp [h11]
    rw [scanLoop_step b f i count codeOff hi (by rw [hsid]; exact hid12) hsize,
      hsid, hcount, hi'eq]
    by_cases hbr : b.length ≤ i + (encSec s).length ∨ 10000 < i + (encSec s).length
    · rw [if_pos hbr]
      cases tail with
      | nil => simp [scanSections]
      | cons t0 ts =>
        exfalso
        have hc : b.drop (i + (encSec s).length) =
            t0.1 :: ((lebEnc t0.2.length ++ t0.2) ++ (encSecs ts ++ rest)) := by
          rw [hdrop4, encSecs_cons]
          simp [encSec, List.append_assoc]
        have h1 : i + (encSec s).length < b.length := lt_length_of_drop_cons hc
        have h2 : i + (encSec s).length ≤ 10000 := by
          apply hstarts
          simp [secStartsFrom]
        omega
    · rw [if_neg hbr]
      push_neg at hbr
      simp only [scanSections]
      apply ih rest
      · exact hdrop4
      · intro u hu; exact hids u (List.mem_cons_of_mem _ hu)
      · intro o ho
        apply hstarts
        simp only [secStartsFrom, List.mem_cons]
        right
        exact ho
      · have hlen : i + (encSecs (s :: tail)).length =
            i + (encSec s).length + (encSecs tail).length := by
          rw [encSecs_cons]; simp; omega
        rw [hlen] at hbreak
        exact hbreak
      · intro ht
        subst ht
        have hlen1 : (encSecs [s]).length = (encSec s).length := by
          simp [encSecs]
        rw [hlen1] at hbreak
        rcases hbreak with h | h
        · exact h
        · exact absurd h (by omega)
      · have hf := hfuel
        simp at hf
        omega

/-! ## §20 Section-level fold lemmas -/

lemma scanSections_append (xs ys : List (Nat × List Nat)) (i count : Nat)
    (codeOff : Option Nat) :
    scanSections (xs ++ ys) i count codeOff =
      scanSections ys (i + (encSecs xs).length)
        (scanSections xs i count codeOff).1 (scanSections xs i count codeOff).2 := by
  induction xs generalizing i count codeOff with
  | nil => simp [scanSections, encSecs]
  | cons x t ihx =>
    rw [List.cons_append]
    simp only [scanSections]
    rw [ihx]
    have hoff : i + (encSec x).length + (encSecs t).length =
        i + (encSecs (x :: t)).length := by
      rw [encSecs_cons]
      simp
      omega
    rw [hoff]

lemma scanSections_cons (s : Nat × List Nat) (ts : List (Nat × List Nat))
    (i count : Nat) (codeOff : Option Nat) :
    scanSections (s :: ts) i count codeOff =
      scanSections ts (i + (encSec s).length)
        (if s.1 = 11 then payloadCount s.2 0 0 else count)
        (if s.1 = 10 ∧ codeOff = none then some i else codeOff) := rfl

lemma scanSections_count_of_no11 (xs : List (Nat × List Nat)) (i count : Nat)
    (codeOff : Option Nat) (h : ∀ s ∈ xs, s.1 ≠ 11) :
    (scanSections xs i count codeOff).1 = count := by
  induction xs generalizing i count codeOff with
  | nil => rfl
  | cons x t ihx =>
    simp only [scanSections]
    rw [if_neg (h x (by simp))]
    exact ihx _ _ _ (fun u hu => h u (by simp [hu]))

lemma scanSections_codeOff_some (xs : List (Nat × List Nat)) (i count o : Nat) :
    (scanSections xs i count (some o)).2 = some o := by
  induction xs generalizing i count with
  | nil => rfl
  | cons x t ihx =>
    rw [scanSections_cons]
    have hcond : ¬(x.1 = 10 ∧ (some o : Option Nat) = none) :=
      fun hc => Option.noConfusion hc.2
    rw [if_neg hcond]
    exact ihx _ _

lemma scanSections_codeOff_of_no10 (xs : List (Nat × List Nat)) (i count : Nat)
    (h : ∀ s ∈ xs, s.1 ≠ 10) :
    (scanSections xs i count none).2 = none := by
  induction xs generalizing i count with
  | nil => rfl
  | cons x t ihx =>
    rw [scanSections_cons]
    have hcond : ¬(x.1 = 10 ∧ (none : Option Nat) = none) :=
      fun hc => (h x (by simp)) hc.1
    rw [if_neg hcond]
    exact ihx _ _ (fun u hu => h u (by simp [hu]))

/-- The data-segment count of a module whose data section (with no id-11
section after it) carries payload `dp`. -/
lemma scanSections_fst_split (P Q : List (Nat × List Nat)) (dp : List Nat)
    (i count : Nat) (codeOff : Option Nat) (hQ : ∀ s ∈ Q, s.1 ≠ 11) :
    (scanSections (P ++ (11, dp) :: Q) i count codeOff).1 = payloadCount dp 0 0 := by
  rw [scanSections_append]
  have hcnt : ∀ (i' c' : Nat) (o' : Option Nat),
      (scanSections Q i' c' o').1 = c' :=
    fun i' c' o' => scanSections_count_of_no11 Q i' c' o' hQ
  simp [scanSections, hcnt]

/-- The code offset of a module whose first id-10 section follows `F`. -/
lemma scanSections_snd_split (F B2 : List (Nat × List Nat)) (cp : List Nat)
    (i count : Nat) (hF : ∀ s ∈ F, s.1 ≠ 10) :
    (scanSections (F ++ (10, cp) :: B2) i count none).2 =
      some (i + (encSecs F).length) := by
  rw [scanSections_append]
  rw [scanSections_codeOff_of_no10 F i count hF]
  have hsome : ∀ (i' c' o' : Nat),
      (scanSections B2 i' c' (some o')).2 = some o' :=
    fun i' c' o' => scanSections_codeOff_some B2 i' c' o'
  simp [scanSections, hsome]

lemma length_le_encSecs (ss : List (Nat × List Nat)) :
    ss.length ≤ (encSecs ss).length := by
  induction ss with
  | nil => simp [encSecs]
  | cons s t ih =>
    rw [encSecs_cons]
    simp [encSec]
    omega

/-! ## §21 `inject_datacount_section` on well-formed modules -/

/-- Reduction of the augmenter once the scan result is known: splice case. -/
lemma inject_reduce_splice (b : List Nat) (h8 : 8 ≤ b.length)
    (hm : b.take 4 = [0, 97, 115, 109]) {cnt o : Nat}
    (hscan : scanLoop b (b.length + 1) 8 0 none = some (cnt, some o))
    (hcnt : 0 < cnt) :
    inject_datacount_section b = b.take o ++ datacountSec cnt ++ b.drop o := by
  unfold inject_datacount_section
  rw [if_neg (by omega), if_neg (by simp [hm]), hscan]
  show (if 0 < cnt then b.take o ++ datacountSec cnt ++ b.drop o else b) =
    b.take o ++ datacountSec cnt ++ b.drop o
  rw [if_pos hcnt]

/-- Reduction of the augmenter once the scan result is known: no-op case. -/
lemma inject_reduce_unchanged (b : List Nat) (h8 : 8 ≤ b.length)
    (hm : b.take 4 = [0, 97, 115, 109]) {cnt : Nat} {off : Option Nat}
    (hscan : scanLoop b (b.length + 1) 8 0 none = some (cnt, off))
    (hzero : cnt = 0 ∨ off = none) :
    inject_datacount_section b = b := by
  unfold inject_datacount_section
  rw [if_neg (by omega), if_neg (by simp [hm]), hscan]
  rcases hzero with rfl | rfl
  · cases off with
    | none =>
      show (if 0 < 0 then b else b) = b
      split <;> rfl
    | some o =>
      show (if (0 : Nat) < 0 then b.take o ++ datacountSec 0 ++ b.drop o else b) = b
      rw [if_neg (by omega)]
  · show (if 0 < cnt then b else b) = b
    split <;> rfl

/-- The byte scan of a full well-formed module equals the section fold. -/
lemma scanLoop_module (ss : List (Nat × List Nat))
    (hids : ∀ s ∈ ss, s.1 < 256 ∧ s.1 ≠ 12 ∧ s.2.length < 2 ^ 32)
    (hstarts : ∀ o ∈ secStartsFrom 8 ss, o ≤ 10000) :
    scanLoop (wasmHeader ++ encSecs ss) ((wasmHeader ++ encSecs ss).length + 1)
      8 0 none = some (scanSections ss 8 0 none) := by
  have hlen : (wasmHeader ++ encSecs ss).length = 8 + (encSecs ss).length := by
    rw [List.length_append]
    rfl
  have hdrop : (wasmHeader ++ encSecs ss).drop 8 = encSecs ss ++ [] := by
    simp [wasmHeader]
  exact scanLoop_eq_scanSections (wasmHeader ++ encSecs ss) ss [] 8 0 none
    ((wasmHeader ++ encSecs ss).length + 1) hdrop hids hstarts
    (Or.inl (by omega)) (fun h => by subst h; simp [encSecs, wasmHeader])
    (by have := length_le_encSecs ss; omega)

lemma module_length (ss : List (Nat × List Nat)) :
    (wasmHeader ++ encSecs ss).length = 8 + (encSecs ss).length := by
  rw [List.length_append]
  rfl

lemma module_magic (ss : List (Nat × List Nat)) :
    (wasmHeader ++ encSecs ss).take 4 = [0, 97, 115, 109] := by
  simp [wasmHeader]

/-- When the 10000-byte scan limit is crossed before any code section was
seen, the augmenter leaves the binary unchanged. -/
lemma inject_unchanged_beyond_limit (ss1 : List (Nat × List Nat)) (rest : List Nat)
    (hids : ∀ s ∈ ss1, s.1 < 256 ∧ s.1 ≠ 12 ∧ s.2.length < 2 ^ 32)
    (h10 : ∀ s ∈ ss1, s.1 ≠ 10)
    (hstarts : ∀ o ∈ secStartsFrom 8 ss1, o ≤ 10000)
    (hbig : 10000 < 8 + (encSecs ss1).length) :
    inject_datacount_section (wasmHeader ++ (encSecs ss1 ++ rest)) =
      wasmHeader ++ (encSecs ss1 ++ rest) := by
  have hlen : (wasmHeader ++ (encSecs ss1 ++ rest)).length =
      8 + ((encSecs ss1).length + rest.length) := by
    rw [List.length_append, List.length_append]
    rfl
  have hdrop : (wasmHeader ++ (encSecs ss1 ++ rest)).drop 8 = encSecs ss1 ++ rest := by
    simp [wasmHeader]
  have hscanLoop := scanLoop_eq_scanSections (wasmHeader ++ (encSecs ss1 ++ rest))
    ss1 rest 8 0 none ((wasmHeader ++ (encSecs ss1 ++ rest)).length + 1) hdrop hids
    hstarts (Or.inr (by omega))
    (fun h => by subst h; simp [encSecs] at hbig)
    (by have := length_le_encSecs ss1; omega)
  have hoff : (scanSections ss1 8 0 none).2 = none :=
    scanSections_codeOff_of_no10 ss1 8 0 h10
  have hscan : scanSections ss1 8 0 none = ((scanSections ss1 8 0 none).1, none) :=
    Prod.ext_iff.mpr ⟨rfl, hoff⟩
  rw [hscan] at hscanLoop
  exact inject_reduce_unchanged _ (by omega) (by simp [wasmHeader]) hscanLoop (Or.inr rfl)

/-- The synthesized datacount section is exactly the encoding of section
`(12, LEB(count))`. -/
lemma datacountSec_eq (N : Nat) (hN : N < 2 ^ 32) :
    datacountSec N = encSec (12, lebEnc N) := by
  unfold datacountSec encSec
  by_cases h : N < 128
  · rw [if_pos h]
    have h1 : lebEnc N = [N] := by
      show lebEncAux (4 + 1) N = [N]
      simp only [lebEncAux]
      rw [if_pos h]
    have h2 : lebEnc 1 = [1] := by
      show lebEncAux (4 + 1) 1 = [1]
      simp only [lebEncAux]
      rw [if_pos (by omega)]
    simp only [h1, List.length_cons, List.length_nil, Nat.zero_add, h2]
    rfl
  · rw [if_neg h]
    have hlen : (lebEnc N).length < 128 := by
      have := lebEncAux_length_le 5 N
      unfold lebEnc
      omega
    have h2 : lebEnc ((lebEnc N).length) = [(lebEnc N).length] := by
      show lebEncAux (4 + 1) ((lebEnc N).length) = [(lebEnc N).length]
      simp only [lebEncAux]
      rw [if_pos hlen]
    rw [h2]
    rfl

/-- The splice performed by the augmenter when the first code section follows
the sections `F` and the section-level count is `N > 0`. -/
lemma inject_splice_general (F B2 : List (Nat × List Nat)) (cp : List Nat) (N : Nat)
    (hids : ∀ s ∈ F ++ (10, cp) :: B2, s.1 < 256 ∧ s.1 ≠ 12 ∧ s.2.length < 2 ^ 32)
    (hF10 : ∀ s ∈ F, s.1 ≠ 10)
    (hstarts : ∀ o ∈ secStartsFrom 8 (F ++ (10, cp) :: B2), o ≤ 10000)
    (hcount : (scanSections (F ++ (10, cp) :: B2) 8 0 none).1 = N)
    (hN : 0 < N) (hNlt : N < 2 ^ 32) :
    inject_datacount_section (wasmHeader ++ encSecs (F ++ (10, cp) :: B2)) =
      wasmHeader ++ encSecs (F ++ (12, lebEnc N) :: (10, cp) :: B2) := by
  have hoff := scanSections_snd_split F B2 cp 8 0 hF10
  have hscan : scanSections (F ++ (10, cp) :: B2) 8 0 none =
      (N, some (8 + (encSecs F).length)) :=
    Prod.ext_iff.mpr ⟨hcount, hoff⟩
  have hscanLoop := scanLoop_module (F ++ (10, cp) :: B2) hids hstarts
  rw [hscan] at hscanLoop
  rw [inject_reduce_splice _ (by rw [module_length]; omega) (module_magic _)
    hscanLoop hN]
  have hb : wasmHeader ++ encSecs (F ++ (10, cp) :: B2) =
      (wasmHeader ++ encSecs F) ++ encSecs ((10, cp) :: B2) := by
    rw [encSecs_append, List.append_assoc]
  have hlenF : 8 + (encSecs F).length = (wasmHeader ++ encSecs F).length := by
    rw [List.length_append]
    rfl
  rw [hb, hlenF, List.take_left, List.drop_left, datacountSec_eq N hNlt]
  rw [encSecs_append]
  simp only [encSecs_cons]
  simp [List.append_assoc]

/-! ## §22 C3, C6, C10: the datacount claims -/

lemma encSecs_nil : encSecs ([] : List (Nat × List Nat)) = [] := rfl

/-- C3 amended: for a well-formed module (no id-12 section, every section id a
byte, payload sizes below `2^32`) whose *every section starts within the
scanner's 10000-byte limit*: if it holds one data section declaring `N > 0`
segments followed (after possible further non-data sections) by the first code
section, the augmenter returns the module with exactly the section
`(12, LEB(N))` spliced in immediately before the code section; and a module
with no data section at all is returned unchanged. -/
theorem inject_datacount_exactness :
    (∀ (A1 A2 B : List (Nat × List Nat)) (cp ex : List Nat) (N : Nat),
      (∀ s ∈ A1 ++ (11, lebEnc N ++ ex) :: (A2 ++ (10, cp) :: B),
        s.1 < 256 ∧ s.1 ≠ 12 ∧ s.2.length < 2 ^ 32) →
      (∀ s ∈ A1 ++ A2, s.1 ≠ 10) →
      (∀ s ∈ A2 ++ B, s.1 ≠ 11) →
      0 < N → N < 2 ^ 32 →
      (∀ o ∈ secStartsFrom 8 (A1 ++ (11, lebEnc N ++ ex) :: (A2 ++ (10, cp) :: B)),
        o ≤ 10000) →
      inject_datacount_section
          (wasmHeader ++ encSecs (A1 ++ (11, lebEnc N ++ ex) :: (A2 ++ (10, cp) :: B))) =
        wasmHeader ++
          encSecs (A1 ++ (11, lebEnc N ++ ex) :: (A2 ++ (12, lebEnc N) :: ((10, cp) :: B)))) ∧
    (∀ ss : List (Nat × List Nat),
      (∀ s ∈ ss, s.1 < 256 ∧ s.1 ≠ 12 ∧ s.1 ≠ 11 ∧ s.2.length < 2 ^ 32) →
      (∀ o ∈ secStartsFrom 8 ss, o ≤ 10000) →
      inject_datacount_section (wasmHeader ++ encSecs ss) = wasmHeader ++ encSecs ss) := by
  constructor
  · intro A1 A2 B cp ex N hids h10 h11 hN hNlt hstarts
    have hQ : ∀ s ∈ A2 ++ (10, cp) :: B, s.1 ≠ 11 := by
      intro s hs
      rcases List.mem_append.mp hs with h | h
      · exact h11 s (List.mem_append_left _ h)
      · rcases List.mem_cons.mp h with rfl | h
        · simp
        · exact h11 s (List.mem_append_right _ h)
    have hF10 : ∀ s ∈ A1 ++ (11, lebEnc N ++ ex) :: A2, s.1 ≠ 10 := by
      intro s hs
      rcases List.mem_append.mp hs with h | h
      · exact h10 s (List.mem_append_left _ h)
      · rcases List.mem_cons.mp h with rfl | h
        · simp
        · exact h10 s (List.mem_append_right _ h)
    have hcount :
        (scanSections (A1 ++ (11, lebEnc N ++ ex) :: (A2 ++ (10, cp) :: B)) 8 0 none).1
          = N := by
      rw [scanSections_fst_split A1 (A2 ++ (10, cp) :: B) (lebEnc N ++ ex) 8 0 none hQ]
      exact payloadCount_lebEnc ex hNlt
    have hform : A1 ++ (11, lebEnc N ++ ex) :: (A2 ++ (10, cp) :: B) =
        (A1 ++ (11, lebEnc N ++ ex) :: A2) ++ (10, cp) :: B := by
      simp
    rw [hform] at hids hstarts hcount ⊢
    rw [inject_splice_general (A1 ++ (11, lebEnc N ++ ex) :: A2) B cp N hids hF10
      hstarts hcount hN hNlt]
    have hlist : (A1 ++ (11, lebEnc N ++ ex) :: A2) ++ (12, lebEnc N) :: (10, cp) :: B =
        A1 ++ (11, lebEnc N ++ ex) :: (A2 ++ (12, lebEnc N) :: ((10, cp) :: B)) := by
      simp
    rw [hlist]
  · intro ss hids hstarts
    have hids2 : ∀ s ∈ ss, s.1 < 256 ∧ s.1 ≠ 12 ∧ s.2.length < 2 ^ 32 :=
      fun s hs => ⟨(hids s hs).1, (hids s hs).2.1, (hids s hs).2.2.2⟩
    have hscanLoop := scanLoop_module ss hids2 hstarts
    have hcnt : (scanSections ss 8 0 none).1 = 0 :=
      scanSections_count_of_no11 ss 8 0 none (fun s hs => (hids s hs).2.2.1)
    have hscan : scanSections ss 8 0 none = (0, (scanSections ss 8 0 none).2) :=
      Prod.ext_iff.mpr ⟨hcnt, rfl⟩
    rw [hscan] at hscanLoop
    exact inject_reduce_unchanged _ (by rw [module_length]; omega) (module_magic ss)
      hscanLoop (Or.inl rfl)

/-- Witness for the amended C3 at concrete modules: a 1-segment data section
before the code section gets `[12, 1, 1]` spliced in before the code section,
and a module with no data section is unchanged. -/
theorem inject_datacount_exactness_witness :
    inject_datacount_section
        (wasmHeader ++ encSecs ([] ++ (11, lebEnc 1 ++ []) :: ([] ++ (10, [0]) :: []))) =
      wasmHeader ++
        encSecs ([] ++ (11, lebEnc 1 ++ []) :: ([] ++ (12, lebEnc 1) :: ((10, [0]) :: []))) ∧
    inject_datacount_section (wasmHeader ++ encSecs [(10, [0])]) =
      wasmHeader ++ encSecs [(10, [0])] :=
  ⟨inject_datacount_exactness.1 [] [] [] [0] [] 1 (by decide) (by decide) (by decide)
      (by decide) (by decide) (by decide),
    inject_datacount_exactness.2 [(10, [0])] (by decide) (by decide)⟩

/-- C6 amended: when the first code section comes *before* the data section,
the scan still picks up the data-segment count `N > 0` from the later data
section and splices the datacount section in before the code section — the
binary is not returned unchanged and the count is not computed as 0. -/
theorem inject_data_after_code (A B1 B2 : List (Nat × List Nat)) (cp ex : List Nat)
    (N : Nat)
    (hids : ∀ s ∈ A ++ (10, cp) :: (B1 ++ (11, lebEnc N ++ ex) :: B2),
      s.1 < 256 ∧ s.1 ≠ 12 ∧ s.2.length < 2 ^ 32)
    (hA10 : ∀ s ∈ A, s.1 ≠ 10)
    (hB2 : ∀ s ∈ B2, s.1 ≠ 11)
    (hN : 0 < N) (hNlt : N < 2 ^ 32)
    (hstarts : ∀ o ∈ secStartsFrom 8 (A ++ (10, cp) :: (B1 ++ (11, lebEnc N ++ ex) :: B2)),
      o ≤ 10000) :
    inject_datacount_section
        (wasmHeader ++ encSecs (A ++ (10, cp) :: (B1 ++ (11, lebEnc N ++ ex) :: B2))) =
      wasmHeader ++
        encSecs (A ++ (12, lebEnc N) :: ((10, cp) :: (B1 ++ (11, lebEnc N ++ ex) :: B2))) := by
  have hcount :
      (scanSections (A ++ (10, cp) :: (B1 ++ (11, lebEnc N ++ ex) :: B2)) 8 0 none).1
        = N := by
    have hform : A ++ (10, cp) :: (B1 ++ (11, lebEnc N ++ ex) :: B2) =
        (A ++ (10, cp) :: B1) ++ (11, lebEnc N ++ ex) :: B2 := by
      simp
    rw [hform, scanSections_fst_split (A ++ (10, cp) :: B1) B2 (lebEnc N ++ ex)
      8 0 none hB2]
    exact payloadCount_lebEnc ex hNlt
  exact inject_splice_general A (B1 ++ (11, lebEnc N ++ ex) :: B2) cp N hids hA10
    hstarts hcount hN hNlt

/-- Witness for the amended C6: code section first, then a 1-segment data
section; the datacount section is spliced in before the code section. -/
theorem inject_data_after_code_witness :
    inject_datacount_section
        (wasmHeader ++ encSecs ([] ++ (10, [0]) :: ([] ++ (11, lebEnc 1 ++ []) :: []))) =
      wasmHeader ++
        encSecs ([] ++ (12, lebEnc 1) :: ((10, [0]) :: ([] ++ (11, lebEnc 1 ++ []) :: []))) :=
  inject_data_after_code [] [] [] [0] [] 1 (by decide) (by decide) (by decide)
    (by decide) (by decide) (by decide)

/-! ## §23 The 10000-byte scan limit (C10) and the C3 counterexample -/

/-- 9990 bytes of zero padding inside a custom section, pushing the code
section past byte offset 10000. -/
def bigPayload : List Nat := List.replicate 9990 0

/-- The sections scanned before the 10000-byte limit: a 1-segment data
section and the huge custom section. -/
def bigSecsA : List (Nat × List Nat) := [(11, [1, 0]), (0, bigPayload)]

/-- A well-formed module whose first code section starts at offset 10005. -/
def bigBinary : List Nat := wasmHeader ++ encSecs (bigSecsA ++ [(10, [0])])

/-- What C3 (as stated) would require `inject_datacount_section` to produce
on `bigBinary`. -/
def bigExpected : List Nat :=
  wasmHeader ++ encSecs [(11, [1, 0]), (0, bigPayload), (12, lebEnc 1), (10, [0])]

lemma bigPayload_length : bigPayload.length = 9990 := by
  rw [bigPayload, List.length_replicate]

lemma encSec_bigPayload_length : (encSec (0, bigPayload)).length = 9993 := by
  have h9 : lebEnc 9990 = [134, 78] := by decide
  rw [encSec]
  simp only [List.length_cons, List.length_append, bigPayload_length, h9]
  rfl

lemma bigSecsA_ids : ∀ s ∈ bigSecsA, s.1 < 256 ∧ s.1 ≠ 12 ∧ s.2.length < 2 ^ 32 := by
  intro s hs
  simp only [bigSecsA, List.mem_cons, List.mem_singleton] at hs
  rcases hs with rfl | rfl | h
  · refine ⟨by norm_num, by norm_num, by norm_num⟩
  · refine ⟨by norm_num, by norm_num, ?_⟩
    rw [bigPayload_length]
    norm_num
  · simp at h

lemma bigSecsA_no10 : ∀ s ∈ bigSecsA, s.1 ≠ 10 := by
  intro s hs
  simp only [bigSecsA, List.mem_cons, List.mem_singleton] at hs
  rcases hs with rfl | rfl | h
  · norm_num
  · norm_num
  · simp at h

lemma bigSecsA_starts : ∀ o ∈ secStartsFrom 8 bigSecsA, o ≤ 10000 := by
  intro o ho
  have h2 : (encSec (11, [1, 0])).length = 4 := by decide
  simp only [bigSecsA, secStartsFrom, h2, List.mem_cons] at ho
  rcases ho with rfl | rfl | h
  · omega
  · omega
  · simp at h

lemma encSecs_bigSecsA_length : (encSecs bigSecsA).length = 9997 := by
  have h2 : (encSec (11, [1, 0])).length = 4 := by decide
  rw [bigSecsA, encSecs_cons, encSecs_cons, encSecs_nil, List.append_nil,
    List.length_append, h2, encSec_bigPayload_length]

lemma bigSecsA_big : 10000 < 8 + (encSecs bigSecsA).length := by
  rw [encSecs_bigSecsA_length]
  omega

/-- C10: when the first code section begins past byte offset 10000 (here: the
sections before it are non-code, start within the limit, and fill more than
10000 bytes), the augmenter returns the binary unchanged even though data
segments exist and no id-12 section is present. -/
theorem inject_scan_limit (ss1 ss2 : List (Nat × List Nat))
    (hids : ∀ s ∈ ss1, s.1 < 256 ∧ s.1 ≠ 12 ∧ s.2.length < 2 ^ 32)
    (h10 : ∀ s ∈ ss1, s.1 ≠ 10)
    (h12 : ∀ s ∈ ss2, s.1 ≠ 12)
    (hcode : ∃ cp, (10, cp) ∈ ss2)
    (hstarts : ∀ o ∈ secStartsFrom 8 ss1, o ≤ 10000)
    (hbig : 10000 < 8 + (encSecs ss1).length) :
    inject_datacount_section (wasmHeader ++ encSecs (ss1 ++ ss2)) =
      wasmHeader ++ encSecs (ss1 ++ ss2) := by
  rw [encSecs_append]
  exact inject_unchanged_beyond_limit ss1 (encSecs ss2) hids h10 hstarts hbig

/-- Witness for C10 at `bigBinary`: code section at offset 10005, one data
segment, no datacount section — the binary comes back unchanged. -/
theorem inject_scan_limit_witness :
    inject_datacount_section (wasmHeader ++ encSecs (bigSecsA ++ [(10, [0])])) =
      wasmHeader ++ encSecs (bigSecsA ++ [(10, [0])]) :=
  inject_scan_limit bigSecsA [(10, [0])] bigSecsA_ids bigSecsA_no10 (by decide)
    ⟨[0], by simp⟩ bigSecsA_starts bigSecsA_big

/-- C3 counterexample: `bigBinary` is a well-formed module with one data
segment, no id-12 section and a code section, yet the augmenter does *not*
produce the datacount-bearing module C3 predicts — it returns the binary
unchanged, because the code section starts beyond the scanner's 10000-byte
limit. -/
theorem inject_datacount_exactness_cex :
    inject_datacount_section bigBinary = bigBinary ∧ bigBinary ≠ bigExpected := by
  constructor
  · rw [bigBinary, encSecs_append]
    exact inject_unchanged_beyond_limit bigSecsA (encSecs [(10, [0])]) bigSecsA_ids
      bigSecsA_no10 bigSecsA_starts bigSecsA_big
  · intro he
    have hlen := congrArg List.length he
    have h2 : (encSec (11, [1, 0])).length = 4 := by decide
    have h4 : (encSec (10, [0])).length = 3 := by decide
    have h5 : (encSec (12, lebEnc 1)).length = 3 := by decide
    have hx : (encSecs [(12, lebEnc 1), (10, [0])]).length = 6 := by
      rw [encSecs_cons, encSecs_cons, encSecs_nil, List.append_nil,
        List.length_append, h5, h4]
    have hlhs : bigBinary.length = 8 + 9997 + 3 := by
      rw [bigBinary, encSecs_append, List.length_append, List.length_append,
        encSecs_bigSecsA_length]
      have hone : (encSecs [(10, [0])]).length = 3 := by
        rw [encSecs_cons, encSecs_nil, List.append_nil, h4]
      rw [hone]
      rfl
    have hrhs : bigExpected.length = 8 + 9997 + 6 := by
      have hsplit : ([(11, [1, 0]), (0, bigPayload), (12, lebEnc 1), (10, [0])] :
          List (Nat × List Nat)) = bigSecsA ++ [(12, lebEnc 1), (10, [0])] := by
        rw [bigSecsA]
        rfl
      rw [bigExpected, hsplit, encSecs_append, List.length_append, List.length_append,
        encSecs_bigSecsA_length, hx]
      rfl
    rw [hlhs, hrhs] at hlen
    omega

/-! ## §24 C7: the lowering pass on string-free sources -/

/-- A source given as newline-terminated lines. -/
def joinNl (ls : List (List Char)) : List Char :=
  (ls.map (fun l => l ++ ['\n'])).flatten

lemma joinNl_cons (l : List Char) (t : List (List Char)) :
    joinNl (l :: t) = l ++ '\n' :: joinNl t := by
  simp [joinNl]

lemma splitNl_ne_nil (s : List Char) : splitNl s ≠ [] := by
  cases s with
  | nil => simp [splitNl]
  | cons c rest =>
    simp only [splitNl]
    split
    · simp
    · split <;> simp

lemma splitNl_cons (c : Char) (rest : List Char) :
    splitNl (c :: rest) =
      if c = '\n' then [] :: splitNl rest
      else
        match splitNl rest with
        | x :: xs => (c :: x) :: xs
        | [] => [[c]] := rfl

lemma splitNl_append_newline (l : List Char) (rest : List Char) (hl : '\n' ∉ l) :
    splitNl (l ++ '\n' :: rest) = l :: splitNl rest := by
  induction l with
  | nil => simp [splitNl]
  | cons c t ih =>
    have hc : c ≠ '\n' := fun h => hl (by simp [h])
    have ht : '\n' ∉ t := fun h => hl (by simp [h])
    rw [List.cons_append, splitNl_cons, if_neg hc, ih ht]

lemma stripCr_of_not_mem (l : List Char) (h : '\x0d' ∉ l) : stripCr l = l := by
  unfold stripCr
  split
  · next hlast => exact absurd (List.mem_of_getLast?_eq_some hlast) h
  · rfl

lemma rustLines_joinNl (ls : List (List Char))
    (h : ∀ l ∈ ls, '\n' ∉ l ∧ '\x0d' ∉ l) :
    rustLines (joinNl ls) = ls := by
  induction ls with
  | nil => rfl
  | cons l t ih =>
    have hl := h l (by simp)
    unfold rustLines
    rw [joinNl_cons, splitNl_append_newline l _ hl.1]
    have hne := splitNl_ne_nil (joinNl t)
    obtain ⟨p, ps, hps⟩ : ∃ p ps, splitNl (joinNl t) = p :: ps := by
      cases hsp : splitNl (joinNl t) with
      | nil => exact absurd hsp hne
      | cons p ps => exact ⟨p, ps, rfl⟩
    rw [hps]
    show stripCr l :: procParts (p :: ps) = l :: t
    rw [stripCr_of_not_mem l hl.2]
    have ihr : procParts (p :: ps) = t := by
      rw [← hps]
      exact ih (fun u hu => h u (by simp [hu]))
    rw [ihr]

lemma transformGo_plain (hasStr : Bool) :
    ∀ (ls : List (List Char)) (added : Bool) (counter : Nat),
      (∀ l ∈ ls, containsSub l ("string".toList) = false) →
      (∀ l ∈ ls, startsW (trimChars l) ("(module".toList) = false) →
      (∀ l ∈ ls, containsSub (trimChars l) ("struct.new".toList) = false ∨
        containsSub (trimChars l) ['"'] = false) →
      transformGo hasStr ls false added counter [] = joinNl ls := by
  intro ls
  induction ls with
  | nil => intro added counter _ _ _; rfl
  | cons line rest ih =>
    intro added counter hstr hmod hlit
    simp only [transformGo]
    rw [if_neg (by rw [hmod line (by simp)]; exact Bool.false_ne_true)]
    have hinj : (false && !added && !hasStr && !(trimChars line).isEmpty &&
        !startsW (trimChars line) (";".toList)) = false := by
      simp
    rw [hinj]
    have htype : (containsSub line ("string".toList) &&
        !containsSub line ("$string".toList) &&
        !containsSub line ("(type $string".toList)) = false := by
      rw [hstr line (by simp)]
      simp
    rw [htype]
    have hlitc : (containsSub (trimChars line) ("struct.new".toList) &&
        containsSub (trimChars line) ['"']) = false := by
      rcases hlit line (by simp) with h | h <;> rw [h] <;> simp
    rw [hlitc]
    simp only [Bool.false_eq_true, if_false]
    rw [ih added counter (fun u hu => hstr u (by simp [hu]))
      (fun u hu => hmod u (by simp [hu])) (fun u hu => hlit u (by simp [hu]))]
    rw [joinNl_cons]
    rfl

/-- C7 counterexample: a module source with no occurrence of "string" at all —
the pass still injects the `$string` type declaration after the module opener,
so the output is not character-for-character equal to the input. -/
theorem transform_not_identity_cex :
    transform_string_types ("(module\n(func)\n)".toList) ≠
      "(module\n(func)\n)".toList := by decide

/-- C7 amended: the pass is the identity exactly on string-free sources that
have no module opener line (otherwise the `$string` type declaration is
injected), no `struct.new`-with-quote line, and whose every line ends in
`'\n'` with no carriage returns (otherwise line endings are rewritten). -/
theorem transform_identity_on_plain_sources (ls : List (List Char))
    (hnl : ∀ l ∈ ls, '\n' ∉ l ∧ '\x0d' ∉ l)
    (hstr : ∀ l ∈ ls, containsSub l ("string".toList) = false)
    (hmod : ∀ l ∈ ls, startsW (trimChars l) ("(module".toList) = false)
    (hlit : ∀ l ∈ ls, containsSub (trimChars l) ("struct.new".toList) = false ∨
      containsSub (trimChars l) ['"'] = false) :
    transform_string_types (joinNl ls) = joinNl ls := by
  unfold transform_string_types
  rw [rustLines_joinNl ls hnl]
  exact transformGo_plain _ ls false 0 hstr hmod hlit

/-- Witness for the amended C7 at the one-line source `"(func)\n"`. -/
theorem transform_identity_on_plain_sources_witness :
    transform_string_types (joinNl ["(func)".toList]) = joinNl ["(func)".toList] :=
  transform_identity_on_plain_sources ["(func)".toList] (by decide) (by decide)
    (by decide) (by decide)

/-! ## §25 C8: no duplicate `$string` declaration -/

lemma transformGo_of_hasStr :
    ∀ (ls : List (List Char)) (inMod added : Bool) (counter : Nat)
      (dataSecs : List (List Char)),
      transformGo true ls inMod added counter dataSecs =
        transformGoNI ls inMod counter dataSecs := by
  intro ls
  induction ls with
  | nil => intro inMod added counter dataSecs; rfl
  | cons line rest ih =>
    intro inMod added counter dataSecs
    simp only [transformGo, transformGoNI]
    split
    · rw [ih]
    · have hinj : (inMod && !added && !true && !(trimChars line).isEmpty &&
          !startsW (trimChars line) (";".toList)) = false := by
        simp
      rw [hinj]
      simp only [Bool.false_eq_true, if_false]
      rw [ih]
      rfl

/-- C8: on a source that already declares the concrete `$string` type, the
lowering pass performs no injection at all: it coincides with the
injection-free reference pass `transformGoNI`, so the output contains exactly
the declarations the input had. -/
theorem transform_no_injection_when_declared (source : List Char)
    (h : containsSub source ("(type $string".toList) = true) :
    transform_string_types source = transformNoInjection source := by
  unfold transform_string_types transformNoInjection
  rw [h]
  exact transformGo_of_hasStr (rustLines source) false false 0 []

/-- Witness for C8 at a source that declares `$string` itself. -/
theorem transform_no_injection_when_declared_witness :
    transform_string_types ("(module\n  (type $string (array (mut i8)))\n)\n".toList) =
      transformNoInjection ("(module\n  (type $string (array (mut i8)))\n)\n".toList) :=
  transform_no_injection_when_declared _ (by decide)

end Servox

